import Mathlib

/-!
Verification of the qESTkit state-vector quantum simulator.

The simulator stores a register of `n` qubits as a complex amplitude vector of
length `2^n` (numpy arrays of dtype complex) and builds full-system operators
by Kronecker products.  We embed the numeric layer exactly: every amplitude
arising in the verified code paths lies in the ring `ℚ[√2] + i·ℚ[√2]`
(the Hadamard matrix has entries `±1/√2 = ±(1/2)·√2`, everything else is
rational), so we model scalars by the computable ring `Q2` of numbers
`a + b·√2` with rational coefficients `a b : QR`, and complex scalars by
pairs of `Q2`.
Matrices are lists of rows (`List (List K)`), vectors are `List K`, mirroring
numpy's dense arrays; operations that numpy rejects at runtime (shape
mismatches) are embedded as `Except`/`Option` failures.
-/

/-- A kernel-computable exact rational: integer numerator and positive,
gcd-reduced denominator, kept canonical by the smart constructor `QR.make`
so that structural equality coincides with value equality.  (Lean's `Rat`
operations do not reduce during `decide`, so the embedding carries its own
rationals.) -/
structure QR where
  num : ℤ
  den : ℤ
deriving DecidableEq, Repr

namespace QR

/-- Canonical form of `n / d`; division by zero yields `0` (the same
convention Mathlib's field structures use). -/
def make (n d : ℤ) : QR :=
  if d = 0 then ⟨0, 1⟩
  else
    let s : ℤ := if d < 0 then -1 else 1
    let n := s * n
    let d := s * d
    let g : ℤ := Int.gcd n d
    ⟨n / g, d / g⟩

def add (x y : QR) : QR := make (x.num * y.den + y.num * x.den) (x.den * y.den)

def neg (x : QR) : QR := ⟨-x.num, x.den⟩

def sub (x y : QR) : QR := add x (neg y)

def mul (x y : QR) : QR := make (x.num * y.num) (x.den * y.den)

def div (x y : QR) : QR := make (x.num * y.den) (x.den * y.num)

instance : Add QR := ⟨add⟩
instance : Neg QR := ⟨neg⟩
instance : Sub QR := ⟨sub⟩
instance : Mul QR := ⟨mul⟩
instance : Div QR := ⟨div⟩
instance (n : ℕ) : OfNat QR n := ⟨⟨n, 1⟩⟩

instance : NatCast QR := ⟨fun n => ⟨n, 1⟩⟩

/-- Order by cross-multiplication (denominators are positive). -/
instance : LT QR := ⟨fun x y => x.num * y.den < y.num * x.den⟩

instance : LE QR := ⟨fun x y => x.num * y.den ≤ y.num * x.den⟩

instance (x y : QR) : Decidable (x < y) :=
  inferInstanceAs (Decidable (x.num * y.den < y.num * x.den))

instance (x y : QR) : Decidable (x ≤ y) :=
  inferInstanceAs (Decidable (x.num * y.den ≤ y.num * x.den))

end QR

/-- Numbers of the form `a + b·√2` with rational `a b` (a computable model
of the subring ℚ[√2] ⊂ ℝ in which all amplitudes of the verified code paths
live: `1/√2 = (1/2)·√2`). -/
structure Q2 where
  a : QR
  b : QR
deriving DecidableEq, Repr

namespace Q2

def add (x y : Q2) : Q2 := ⟨x.a + y.a, x.b + y.b⟩

def neg (x : Q2) : Q2 := ⟨-x.a, -x.b⟩

def sub (x y : Q2) : Q2 := ⟨x.a - y.a, x.b - y.b⟩

/-- `(a + b√2)(c + d√2) = (ac + 2bd) + (ad + bc)√2`. -/
def mul (x y : Q2) : Q2 := ⟨x.a * y.a + 2 * x.b * y.b, x.a * y.b + x.b * y.a⟩

def ofRat (q : QR) : Q2 := ⟨q, 0⟩

instance : Add Q2 := ⟨add⟩
instance : Neg Q2 := ⟨neg⟩
instance : Sub Q2 := ⟨sub⟩
instance : Mul Q2 := ⟨mul⟩
instance : Zero Q2 := ⟨⟨0, 0⟩⟩
instance : One Q2 := ⟨⟨1, 0⟩⟩

/-- Multiplicative inverse: `(a + b√2)⁻¹ = (a − b√2)/(a² − 2b²)`;
division by zero yields `0` (matching ℚ's convention; the denominator
`a² − 2b²` vanishes on ℚ only at `a = b = 0` since √2 is irrational). -/
def inv (x : Q2) : Q2 :=
  let d : QR := x.a * x.a - 2 * x.b * x.b
  ⟨x.a / d, -x.b / d⟩

def div (x y : Q2) : Q2 := x.mul y.inv

/-- Decides `0 ≤ a + b·√2` over the reals, using that for rationals
`a + b√2 ≥ 0` reduces to sign analysis plus comparison of `a²` with `2b²`. -/
def nonneg (x : Q2) : Bool :=
  if 0 ≤ x.a then
    if 0 ≤ x.b then true else decide (2 * x.b * x.b ≤ x.a * x.a)
  else
    if x.b ≤ 0 then false else decide (x.a * x.a ≤ 2 * x.b * x.b)

/-- Decides `x ≤ y` in ℚ[√2] ⊂ ℝ. -/
def le (x y : Q2) : Bool := nonneg (y.sub x)

/-- Decides `x < y` in ℚ[√2] ⊂ ℝ. -/
def lt (x y : Q2) : Bool := !(le y x)

/-- Absolute value in ℚ[√2]. -/
def abs (x : Q2) : Q2 := if nonneg x then x else x.neg

def sum (l : List Q2) : Q2 := l.foldl add 0

end Q2

/-- Complex scalars with real and imaginary part in ℚ[√2] — the exact
counterpart of numpy's `complex` dtype on the verified code paths. -/
structure K where
  re : Q2
  im : Q2
deriving DecidableEq, Repr

namespace K

def add (x y : K) : K := ⟨x.re + y.re, x.im + y.im⟩

def neg (x : K) : K := ⟨x.re.neg, x.im.neg⟩

def sub (x y : K) : K := ⟨x.re - y.re, x.im - y.im⟩

def mul (x y : K) : K :=
  ⟨x.re * y.re - x.im * y.im, x.re * y.im + x.im * y.re⟩

instance : Add K := ⟨add⟩
instance : Neg K := ⟨neg⟩
instance : Sub K := ⟨sub⟩
instance : Mul K := ⟨mul⟩
instance : Zero K := ⟨0, 0⟩
instance : One K := ⟨1, 0⟩

def ofRat (q : QR) : K := ⟨⟨q, 0⟩, 0⟩

/-- `|z|² = re² + im²`, the quantity numpy computes as `np.abs(z) ** 2`. -/
def normSq (z : K) : Q2 := z.re * z.re + z.im * z.im

end K

/-! ### Dense matrices and vectors (numpy arrays) -/

/-- A state vector: numpy 1-d array of complex amplitudes. -/
abbrev Vec := List K

/-- A dense matrix: numpy 2-d array as a list of rows. -/
abbrev Mat := List (List K)

/-- Errors surfaced by the embedded code; each constructor corresponds to a
Python exception raised by the source. -/
inductive Err where
  /-- `ValueError("Probabilities are not normalized. ...")` in `run_simulation`. -/
  | normalization : Err
  /-- numpy shape mismatch (`ValueError: operands could not be broadcast ...`
  or a matmul dimension error). -/
  | dimMismatch : Err
  /-- `ValueError` raised by a gate's own argument checks (wrong number of
  target qubits, target index out of range, control = target). -/
  | invalidArg (msg : String) : Err
  /-- Python `IndexError` (e.g. `self.qubits[0]` on an empty list, or a numpy
  index out of bounds). -/
  | indexError : Err
  /-- A code path that falls off the end of a function and returns `None`
  where an array was expected. -/
  | noneReturned : Err
deriving DecidableEq, Repr

deriving instance DecidableEq for Except

/-- Dot product `row · v` (entries beyond the shorter list are ignored;
callers check lengths first, mirroring numpy's shape check). -/
def dot (row v : Vec) : K := (List.zipWith K.mul row v).foldl K.add 0

/-- `A @ v` (numpy matrix–vector product): fails like numpy when some row
length differs from the vector length. -/
def matVec (A : Mat) (v : Vec) : Except Err Vec :=
  if A.all (fun row => row.length = v.length) then
    Except.ok (A.map (fun row => dot row v))
  else
    Except.error Err.dimMismatch

/-- `np.kron A B`: entry `[(i·p + r), (j·q + s)] = A[i][j] · B[r][s]`. -/
def kron (A B : Mat) : Mat :=
  A.flatMap (fun rowA => B.map (fun rowB =>
    rowA.flatMap (fun x => rowB.map (fun y => x.mul y))))

/-- `np.eye n` over complex entries. -/
def eye (n : ℕ) : Mat :=
  (List.range n).map (fun i => (List.range n).map (fun j =>
    if i = j then 1 else 0))

/-- The 2×2 identity `np.eye(2)`. -/
def I2 : Mat := eye 2

/-- Shape of a (rectangular) numpy array: (number of rows, length of first
row). -/
def shape (A : Mat) : ℕ × ℕ := (A.length, (A.headD []).length)

/-- `A + B` with numpy's broadcasting on square-ish shapes: equal shapes add
elementwise, a 1×1 operand broadcasts, anything else raises. -/
def matAdd (A B : Mat) : Except Err Mat :=
  if shape A = shape B then
    Except.ok (List.zipWith (fun ra rb => List.zipWith K.add ra rb) A B)
  else if shape A = (1, 1) then
    Except.ok (B.map (fun row => row.map (fun y => ((A.headD []).headD 0).add y)))
  else if shape B = (1, 1) then
    Except.ok (A.map (fun row => row.map (fun x => x.add ((B.headD []).headD 0))))
  else
    Except.error Err.dimMismatch

/-- Elementwise `state + noise` for same-shaped numpy 1-d arrays (the noisy
runner draws `noise` with `state.shape`, so shapes always agree there). -/
def vecAdd (v w : Vec) : Vec := List.zipWith K.add v w

/-- `Prop`-level rectangularity: `A` has `r` rows, each of length `c`. -/
def isRect (A : Mat) (r c : ℕ) : Prop :=
  A.length = r ∧ ∀ row ∈ A, row.length = c

/-! ### Python `bin`, `zfill`, and the histogram key format -/

/-- The digit characters of `bin(k)[2:]`, most significant bit first (empty
for `k = 0`; `binChars` below adds Python's `"0"` spelling).  Structural
recursion on a fuel argument (any `fuel ≥ k` gives the exact digits). -/
def binCharsAux : ℕ → ℕ → List Char
  | 0, _ => []
  | fuel + 1, k =>
      if k = 0 then []
      else binCharsAux fuel (k / 2) ++ [if k % 2 = 1 then '1' else '0']

/-- `bin(k)[2:]` — Python's binary representation without the `0b` prefix. -/
def binChars (k : ℕ) : List Char :=
  if k = 0 then ['0'] else binCharsAux k k

/-- Python `str.zfill`: left-pad with `'0'` to width `w` (no truncation). -/
def zfill (w : ℕ) (s : List Char) : List Char :=
  List.replicate (w - s.length) '0' ++ s

/-- Value of a most-significant-bit-first 0/1 character string (Python
`int(s, 2)`). -/
def bitsVal (s : List Char) : ℕ :=
  s.foldl (fun acc c => 2 * acc + (if c = '1' then 1 else 0)) 0

/-- The histogram key the runner builds for basis index `st` of an
`n`-qubit register: `f"|{bin(st)[2:].zfill(n)}>"`. -/
def formatKey (st n : ℕ) : String :=
  String.mk ('|' :: zfill n (binChars st) ++ ['>'])

/-- `collections.Counter` iteration: the distinct values in first
occurrence order. -/
def firstSeen (l : List ℕ) : List ℕ :=
  l.foldl (fun seen x => if x ∈ seen then seen else seen ++ [x]) []

/-- `Counter(results)` as an association list `(value, count)` in first
occurrence order. -/
def tally (l : List ℕ) : List (ℕ × ℕ) :=
  (firstSeen l).map (fun x => (x, l.count x))

/-! ### The gate classes

Every single-qubit gate class of the repository (`Hadamard`, `X`, `Y`, `Z`,
`S`, `T`, `Ph`, `Rx`, `Ry`, `Rz`, `Identity`) overrides `Gate.apply` with the
same body, differing only in `self.matrix`; we embed them as one constructor
carrying the matrix.  `CNOT` has its own `apply` building its operator from
projectors.  (The `CZ` class is not needed by any claim and is omitted from
the embedded gate universe.) -/

inductive PyGate where
  /-- Any single-qubit gate object: its `qubits` constructor argument
  (default `None`) and its `matrix`. -/
  | single (qubits : Option (List ℤ)) (matrix : Mat) : PyGate
  /-- A `CNOT(control, target)` object (its `qubits` is `[control, target]`). -/
  | cnotG (control target : ℤ) : PyGate
deriving DecidableEq, Repr

/-- The 4×4 `CNOT.matrix` set in `CNOT.__init__`. -/
def cnotMatrix4 : Mat :=
  [[1, 0, 0, 0], [0, 1, 0, 0], [0, 0, 0, 1], [0, 0, 1, 0]]

/-- `gate.qubits` (Python attribute; `Gate.__init__` turns `None` into `[]`). -/
def PyGate.qubits : PyGate → Option (List ℤ)
  | .single qs _ => qs
  | .cnotG c t => some [c, t]

/-- `gate.matrix`. -/
def PyGate.matrix : PyGate → Mat
  | .single _ m => m
  | .cnotG _ _ => cnotMatrix4

/-- `int(np.log2(n))` for `n ≥ 1` (structural recursion on fuel; Python
would raise on `n = 0`, a case no embedded caller reaches — the fuel version
returns 0 there). -/
def pyLog2Aux : ℕ → ℕ → ℕ
  | 0, _ => 0
  | fuel + 1, n => if 2 ≤ n then pyLog2Aux fuel (n / 2) + 1 else 0

/-- `int(np.log2(n))`. -/
def pyLog2 (n : ℕ) : ℕ := pyLog2Aux n n

/-- The operator built by the single-qubit override of `apply` and by
`Gate.get_operator`:
```
operator = self.matrix
for i in range(num_qubits):
    if i == target: continue
    operator = np.kron(identity, operator)
```
Note the loop prepends `identity` on the left for every non-target `i`, so
the gate matrix always ends up in the last tensor slot, regardless of
`target`. -/
def buggySingleOperator (M : Mat) (target : ℤ) (n : ℕ) : Mat :=
  (List.range n).foldl
    (fun (op : Mat) (i : ℕ) => if (i : ℤ) = target then op else kron I2 op) M

/-- The shared body of `Hadamard.apply`, `X.apply`, … (and `Gate.apply`'s
guards): requires exactly one target qubit, computes
`num_qubits = int(np.log2(len(state)))`, rejects `target >= num_qubits`
(negative targets pass the check), then multiplies the built operator into
the state. -/
def singleApply (M : Mat) (qubits : Option (List ℤ)) (state : Vec) :
    Except Err Vec :=
  match qubits with
  | some [t] =>
      let numQubits : ℕ := pyLog2 state.length
      if (numQubits : ℤ) ≤ t then
        Except.error (Err.invalidArg "Target qubit index exceeds the number of qubits in the state vector.")
      else
        matVec (buggySingleOperator M t numQubits) state
  | _ => Except.error (Err.invalidArg "gate requires exactly one target qubit.")

/-- `Gate.get_operator(num_qubits)`: reads `self.qubits[0]` (an `IndexError`
if the gate has no target — and a `TypeError` if `qubits` is `None`, both
embedded as `indexError`) and builds the same target-independent operator as
`buggySingleOperator`. -/
def get_operator (g : PyGate) (numQubits : ℕ) : Except Err Mat :=
  match g.qubits with
  | some (t :: _) => Except.ok (buggySingleOperator g.matrix t numQubits)
  | _ => Except.error Err.indexError

/-- First loop of `CNOT._construct_cnot_operator`: only the `control` and
`target` positions contribute a factor (there is no `else` branch), so for
in-range distinct qubits the result is always 4×4 however many qubits the
system has. -/
def cnotFirstTerm (control target : ℤ) (n : ℕ) : Mat :=
  (List.range n).foldl
    (fun (op : Mat) (i : ℕ) =>
      if (i : ℤ) = control then kron op P0
      else if (i : ℤ) = target then
        if control < target then kron op I2 else kron I2 op
      else op)
    (eye 1)
where
  P0 : Mat := [[1, 0], [0, 0]]

/-- Second term of `CNOT._construct_cnot_operator` (the inner copy of the
loop, which runs to completion before the early `return`): the full
`2^n × 2^n` product with `|1⟩⟨1|` at `control`, `X` at `target`, identity
elsewhere. -/
def cnotSecondTerm (control target : ℤ) (n : ℕ) : Mat :=
  (List.range n).foldl
    (fun (op : Mat) (i : ℕ) =>
      if (i : ℤ) = control then kron op P1
      else if (i : ℤ) = target then kron op X2
      else kron op I2)
    (eye 1)
where
  P1 : Mat := [[0, 0], [0, 1]]
  X2 : Mat := [[0, 1], [1, 0]]

/-- `CNOT._construct_cnot_operator(control, target, num_qubits)`: returns
`operator + second_term`; the function body returns from inside
`for i in range(num_qubits)`, so with `num_qubits = 0` it falls through and
returns `None`.  The sum adds a 4×4 first term to a `2^n × 2^n` second term,
which numpy only accepts for `n = 2`. -/
def construct_cnot_operator (control target : ℤ) (n : ℕ) : Except Err Mat :=
  if n = 0 then Except.error Err.noneReturned
  else matAdd (cnotFirstTerm control target n) (cnotSecondTerm control target n)

/-- `CNOT.apply(state)`: arity guard, `num_qubits = int(np.log2(len(state)))`,
range checks on control/target (negative indices pass), distinctness check,
then operator construction and multiplication. -/
def cnotApply (control target : ℤ) (state : Vec) : Except Err Vec := do
  let numQubits : ℕ := pyLog2 state.length
  if (numQubits : ℤ) ≤ control ∨ (numQubits : ℤ) ≤ target then
    throw (Err.invalidArg "Control or target qubit index exceeds the number of qubits in the state vector.")
  else if control = target then
    throw (Err.invalidArg "Control and target qubits must be different.")
  else
    let op ← construct_cnot_operator control target numQubits
    matVec op state

/-- Dynamic dispatch of `gate.apply(state)`. -/
def PyGate.apply : PyGate → Vec → Except Err Vec
  | .single qs M, state => singleApply M qs state
  | .cnotG c t, state => cnotApply c t state

/-! ### The circuit -/

/-- `QuantumCircuit`: `num_qubits`, ordered gate list, current state vector. -/
structure Circuit where
  num_qubits : ℕ
  gates : List PyGate
  state : Vec
deriving DecidableEq, Repr

/-- The basis vector `|0…0⟩` of dimension `d`. -/
def basis0 (d : ℕ) : Vec :=
  (List.range d).map (fun i => if i = 0 then 1 else 0)

/-- `QuantumCircuit(num_qubits)`. -/
def mkCircuit (n : ℕ) : Circuit := ⟨n, [], basis0 (2 ^ n)⟩

/-- `QuantumCircuit.add_gate(gate)`: only a gate whose `qubits is None` has
its matrix shape checked against the circuit dimension; every gate is then
appended.  No qubit-index validation happens here (`Gate.validate` exists
but is never called anywhere in the repository). -/
def add_gate (c : Circuit) (g : PyGate) : Except Err Circuit :=
  match g.qubits with
  | none =>
      if shape g.matrix ≠ (2 ^ c.num_qubits, 2 ^ c.num_qubits) then
        Except.error (Err.invalidArg "Multi-qubit gate matrix dimensions do not match circuit size.")
      else
        Except.ok { c with gates := c.gates ++ [g] }
  | some _ => Except.ok { c with gates := c.gates ++ [g] }

/-- The state produced by `QuantumCircuit.apply()`:
`for gate in gates: state = gate.apply(state)`. -/
def applyAll (gates : List PyGate) (state : Vec) : Except Err Vec :=
  gates.foldlM (fun st g => g.apply st) state

/-! ### The ideal runner (`run_simulation`)

Randomness is embedded as explicit oracle inputs: `draws i` is the basis
index returned by the `i`-th call of
`np.random.choice(len(probabilities), p=probabilities)` (so each draw lies
below the probability-vector length).  The runner also returns the
probability vector it handed to the sampler, and the circuit object as it
stands after the call (`circuit.apply()` stores the evolved state in
`circuit.state`). -/

/-- `np.isclose(a, b)` with numpy defaults: `|a − b| ≤ atol + rtol·|b|`,
`rtol = 1e-5`, `atol = 1e-8`. -/
def npIsClose (x y : Q2) : Bool :=
  Q2.le (Q2.abs (x.sub y)) (Q2.add (Q2.ofRat (1 / 100000000))
    (Q2.mul (Q2.ofRat (1 / 100000)) (Q2.abs y)))

/-- `run_simulation(circuit, num_simulations)` (the deterministic part):
apply the circuit once, form `probabilities = |state|²`, raise
`NormalizationError` unless `np.isclose(total, 1.0)`, then tally
`num_simulations` categorical draws and format keys as
`f"|{bin(i)[2:].zfill(num_qubits)}>"`.  Returns (probabilities used for
sampling, formatted counts, circuit after the call). -/
def run_simulation (c : Circuit) (numSimulations : ℕ) (draws : ℕ → ℕ) :
    Except Err (List Q2 × List (String × ℕ) × Circuit) := do
  let st ← applyAll c.gates c.state
  let c' := { c with state := st }
  let probabilities := st.map K.normSq
  let total := Q2.sum probabilities
  if !npIsClose total 1 then
    throw Err.normalization
  else
    let results := (List.range numSimulations).map draws
    let formatted := (tally results).map
      (fun p => (formatKey p.1 c.num_qubits, p.2))
    return (probabilities, formatted, c')

/-! ### The noisy runner (`run_noisy_simulation`) -/

/-- One entry of `IBM_PROFILES`. -/
structure HardwareProfile where
  gate_error : QR
  meas_error : QR
  single_qubit_error : QR
  cnot_error : QR
  t1_decay_prob : QR
  thermal_prob : QR
deriving DecidableEq, Repr

/-- `IBM_PROFILES` in insertion order: `ibm_kyiv`, then `ibm_brisbane`. -/
def IBM_PROFILES : List HardwareProfile :=
  [⟨8/1000, 1/100, 1/1000, 1/100, 3/100, 2/1000⟩,
   ⟨12/1000, 2/100, 2/1000, 2/100, 4/100, 5/1000⟩]

/-- Profile interception: the first profile whose `gate_error` equals the
caller's `gate_error_prob` exactly, else `none`. -/
def resolveProfile (gate_error_prob : QR) : Option HardwareProfile :=
  IBM_PROFILES.find? (fun p => p.gate_error = gate_error_prob)

/-- Whether the noisy runner treats a gate as entangling:
`hasattr(gate, 'control_qubit')` is `False` for every gate class in the
repository (none defines that attribute), so the test reduces to
`type(gate).__name__.upper() in ['CNOT', 'CZ']`. -/
def isEntangling : PyGate → Bool
  | .single _ _ => false
  | .cnotG _ _ => true

/-- Randomness consumed while applying one gate in the noisy pass:
`coin` is the `random.random()` draw, `vecNoise` the complex state-shaped
Gaussian sample, `matNoise` the operator-shaped (real) Gaussian sample. -/
structure GateDraws where
  coin : QR
  vecNoise : Vec
  matNoise : Mat

/-- One step of the gate-level noise pass (lines 101–116 of `_run.py`):
an entangling gate is applied exactly and then, with probability
`cnot_error`, state-shaped noise is added to the amplitudes; a single-qubit
gate has (with probability `single_qubit_error`) noise added to its
`get_operator(circuit.num_qubits)` matrix before it is multiplied in.
The in-place `state += noise` happens only after `state` was rebound to the
fresh array returned by `gate.apply`, so it never writes the circuit's own
state array. -/
def noisyGateStep (numQubits : ℕ) (single_qubit_error cnot_error : QR)
    (st : Vec) (g : PyGate) (d : GateDraws) : Except Err Vec := do
  if isEntangling g then
    let st' ← g.apply st
    if d.coin < cnot_error then
      return vecAdd st' d.vecNoise
    else
      return st'
  else
    if d.coin < single_qubit_error then
      let op ← get_operator g numQubits
      let noisyOp ← matAdd op d.matNoise
      matVec noisyOp st
    else
      let op ← get_operator g numQubits
      matVec op st

/-- Post-evolution probability handling of the noisy runner
(lines 118–124): recompute `|state|²` and, when the total is *not*
`np.isclose` to 1, divide elementwise by the total; no error is raised. -/
def noisyProbabilities (st : Vec) : List Q2 :=
  let probabilities := st.map K.normSq
  let total := Q2.sum probabilities
  if !npIsClose total 1 then
    probabilities.map (fun p => p.div total)
  else
    probabilities

/-- Randomness consumed by one measurement shot: the categorical draw of the
"true" index, the `random.random()` coin of the basic branch, the
`random.randint(0, len(probabilities) - 1)` uniform draw of the basic
branch, and the per-bit `random.random()` coins of the profile branch. -/
structure ShotDraws where
  trueIx : ℕ
  measCoin : QR
  uniformIx : ℕ
  bitCoins : ℕ → QR

/-- Profile-branch bit flipping (lines 133–143): each `'1'` of the
zero-padded binary string decays to `'0'` with probability `t1_decay_prob`,
each `'0'` excites to `'1'` with probability `thermal_prob`, and the result
is parsed back with `int(_, 2)`. -/
def profileFlip (numQubits : ℕ) (t1_decay_prob thermal_prob : QR)
    (trueIx : ℕ) (bitCoins : ℕ → QR) : ℕ :=
  let chars := zfill numQubits (binChars trueIx)
  let flipped := (chars.enum).flatMap (fun p =>
    if p.2 = '1' then [if bitCoins p.1 < t1_decay_prob then '0' else '1']
    else if p.2 = '0' then [if bitCoins p.1 < thermal_prob then '1' else '0']
    else [])
  bitsVal flipped

/-- One measurement shot (lines 128–151).  With a resolved profile the true
index goes through per-bit T1/thermal flips; without one, with probability
`measurement_error_prob` the true index is discarded for the uniform draw
(`random.randint(0, len(probabilities) - 1)`, i.e. any index below the
probability-vector length), else reported unchanged. -/
def reportShot (profile : Option HardwareProfile) (numQubits : ℕ)
    (t1_decay_prob thermal_prob measurement_error_prob : QR)
    (d : ShotDraws) : ℕ :=
  match profile with
  | some _ => profileFlip numQubits t1_decay_prob thermal_prob d.trueIx d.bitCoins
  | none => if d.measCoin < measurement_error_prob then d.uniformIx else d.trueIx

/-- `run_noisy_simulation(circuit, num_simulations, gate_error_prob,
measurement_error_prob)`.  The evolution works on a local rebinding of
`circuit.state`; no attribute of the circuit object is ever assigned, so the
returned circuit is the argument itself.  Returns (renormalized probability
vector, formatted counts, circuit after the call). -/
def run_noisy_simulation (c : Circuit) (numSimulations : ℕ)
    (gate_error_prob measurement_error_prob : QR)
    (gateDraws : ℕ → GateDraws) (shotDraws : ℕ → ShotDraws) :
    Except Err (List Q2 × List (String × ℕ) × Circuit) := do
  let profile := resolveProfile gate_error_prob
  let single_qubit_error := (profile.map (·.single_qubit_error)).getD gate_error_prob
  let cnot_error := (profile.map (·.cnot_error)).getD gate_error_prob
  let t1_decay_prob := (profile.map (·.t1_decay_prob)).getD 0
  let thermal_prob := (profile.map (·.thermal_prob)).getD 0
  let st ← (c.gates.enum).foldlM
    (fun st p => noisyGateStep c.num_qubits single_qubit_error cnot_error st p.2
      (gateDraws p.1))
    c.state
  let probabilities := noisyProbabilities st
  let results := (List.range numSimulations).map (fun i =>
    reportShot profile c.num_qubits t1_decay_prob thermal_prob
      measurement_error_prob (shotDraws i))
  let formatted := (tally results).map
    (fun p => (formatKey p.1 c.num_qubits, p.2))
  return (probabilities, formatted, c)

/-! ### Grover: Oracle, Diffuser, superposition initialization, driver -/

/-- Python `int()` applied to a real value: truncation toward zero. -/
noncomputable def pyInt (y : ℝ) : ℤ := if 0 ≤ y then ⌊y⌋ else ⌈y⌉

/-- The iteration count computed by `grover` (line 34 of `grover.py`):
`int(np.floor(np.pi / 4 * np.sqrt(num_states)) - 0.5)` — the floor is taken
*before* subtracting `0.5`.  `num_states = 2**num_qubits` is bound on line 16
from the caller's `num_qubits`, before the later reassignment. -/
noncomputable def groverIterationsCode (numStates : ℕ) : ℤ :=
  pyInt ((⌊Real.pi / 4 * Real.sqrt (numStates : ℝ)⌋ : ℝ) - 0.5)

/-- Modelled from the spec (§4.5 / claim C9): iteration count
`floor(π/4 · sqrt(2^numQubits) − 0.5)`, the floor taken of the whole
expression after subtracting 0.5. -/
noncomputable def groverIterationsSpec (numStates : ℕ) : ℤ :=
  ⌊Real.pi / 4 * Real.sqrt (numStates : ℝ) - 0.5⌋

/-- The Hadamard matrix `[[1/√2, 1/√2], [1/√2, -1/√2]]`; in `Q2`,
`1/√2 = (1/2)·√2 = ⟨0, 1/2⟩`. -/
def hadamardMatrix : Mat :=
  [[⟨⟨0, 1/2⟩, 0⟩, ⟨⟨0, 1/2⟩, 0⟩],
   [⟨⟨0, 1/2⟩, 0⟩, ⟨⟨0, -(1/2)⟩, 0⟩]]

/-- `initialize_superposition(num_qubits)` (from
`tests/circuit/circuit_initialization.py`, the module `grover.py` imports):
start at `|0…0⟩` and apply `Hadamard(qubits=[q]).apply` for each qubit `q`. -/
def initialize_superposition (numQubits : ℕ) : Except Err Vec :=
  (List.range numQubits).foldlM
    (fun (st : Vec) (q : ℕ) => singleApply hadamardMatrix (some [(q : ℤ)]) st)
    (basis0 (2 ^ numQubits))

/-- `Oracle(marked_state, num_qubits).matrix`: `np.eye(2**n)` with entry
`(marked, marked)` overwritten to `-1`; the numpy index assignment fails for
`marked ≥ 2**n` (Python would also accept small negative indices by
wraparound; the embedded callers only pass naturals). -/
def oracleMatrix (marked numQubits : ℕ) : Except Err Mat :=
  let numStates := 2 ^ numQubits
  if marked < numStates then
    Except.ok ((List.range numStates).map (fun i =>
      (List.range numStates).map (fun j =>
        if i = j then (if i = marked then ⟨⟨-1, 0⟩, 0⟩ else 1) else 0)))
  else
    Except.error Err.indexError

/-- `Diffuser(num_qubits).matrix = 2 * np.full((N, N), 1/N) - np.eye(N)`. -/
def diffuserMatrix (numQubits : ℕ) : Mat :=
  let numStates := 2 ^ numQubits
  (List.range numStates).map (fun i =>
    (List.range numStates).map (fun j =>
      if i = j then ⟨⟨2 / (numStates : QR) - 1, 0⟩, 0⟩
      else ⟨⟨2 / (numStates : QR), 0⟩, 0⟩))

/-- `k` Grover iterations, each `Oracle.apply` then `Diffuser.apply`
(both are plain matrix–vector products). -/
def groverLoop (oracle diffuser : Mat) : ℕ → Vec → Except Err Vec
  | 0, st => Except.ok st
  | k + 1, st => do
      let st ← matVec oracle st
      let st ← matVec diffuser st
      groverLoop oracle diffuser k st

/-- `grover(num_qubits, marked_state)` as written: `num_states` is taken
from the caller's `num_qubits` (line 16), but line 23 then reassigns
`num_qubits = 6`, so superposition, Oracle and Diffuser are all built for a
6-qubit system regardless of the argument, while the iteration count still
uses the caller's `num_states`. -/
noncomputable def grover (numQubits marked : ℕ) : Except Err Vec := do
  let numStates := 2 ^ numQubits
  -- line 23: num_qubits = 6
  let numQubits := 6
  let st ← initialize_superposition numQubits
  let oracle ← oracleMatrix marked numQubits
  let diffuser := diffuserMatrix numQubits
  let numIterations := (groverIterationsCode numStates).toNat
  groverLoop oracle diffuser numIterations st

/-! ### Spec-modelled operator constructions (for refinement comparison) -/

/-- Modelled from the spec (§4.1, claim C2): `buildSingleQubitOperator`
tensor-multiplies, for `i = 0..numQubits-1` in qubit-index order, the gate
matrix at position `targetQubit` and the 2×2 identity elsewhere. -/
def buildSingleQubitOperator (gateMatrix : Mat) (targetQubit numQubits : ℕ) : Mat :=
  (List.range numQubits).foldl
    (fun op i => kron op (if i = targetQubit then gateMatrix else I2))
    (eye 1)

/-- Bit `q` of basis index `i` in the fixed convention (spec §3): qubit `q`
is bit position `q` counted from the most significant end of the `n`-bit
string, i.e. the bit of weight `2^(n-1-q)`. -/
def qubitBit (n q i : ℕ) : ℕ := i / 2 ^ (n - 1 - q) % 2

/-- Basis-index action claimed for CNOT (claim C3): indices with control bit
1 get their target bit flipped, others are fixed. -/
def cnotPermute (n c t i : ℕ) : ℕ :=
  if qubitBit n c i = 1 then
    if qubitBit n t i = 1 then i - 2 ^ (n - 1 - t) else i + 2 ^ (n - 1 - t)
  else i

/-- Modelled from the spec (§4.1, claim C3): the permutation operator of
`buildControlledNotOperator` as a matrix (column `i` is the basis vector
`cnotPermute i`). -/
def specCnotOperator (n c t : ℕ) : Mat :=
  (List.range (2 ^ n)).map (fun row =>
    (List.range (2 ^ n)).map (fun col =>
      if row = cnotPermute n c t col then 1 else 0))

/-! ### Concrete witnesses used by the theorems below -/

/-- The state `[1/√2, 1/√2, 0, 0]` the buggy code produces in the
`test_double_hadamard` scenario (H on qubit 0 then H twice on qubit 1 of a
2-qubit register). -/
def doubleHadamardActual : Vec :=
  [⟨⟨0, 1/2⟩, 0⟩, ⟨⟨0, 1/2⟩, 0⟩, 0, 0]

/-- The state `[1/√2, 0, 1/√2, 0]` that `test_double_hadamard` asserts. -/
def doubleHadamardExpected : Vec :=
  [⟨⟨0, 1/2⟩, 0⟩, 0, ⟨⟨0, 1/2⟩, 0⟩, 0]

/-- A circuit whose (already prepared) state has squared-norm total
`1 + 4·10⁻⁶`: a deviation bigger than the claimed `1e-6` tolerance but
inside numpy's default `isclose` tolerance. -/
def smallDeviationCircuit : Circuit := ⟨1, [], [K.ofRat 1, K.ofRat (1 / 500)]⟩

/-- A circuit whose state has squared-norm total `1 + 2.5·10⁻⁵`, outside
numpy's default tolerance. -/
def largeDeviationCircuit : Circuit := ⟨1, [], [K.ofRat 1, K.ofRat (1 / 200)]⟩

/-- A 1-qubit circuit holding a single Hadamard gate, still in `|0⟩`. -/
def hadamardOneQubitCircuit : Circuit :=
  ⟨1, [.single (some [0]) hadamardMatrix], basis0 2⟩

/-- The state `[1/√2, 1/√2]` that applying that circuit produces. -/
def hadamardAppliedState : Vec := [⟨⟨0, 1/2⟩, 0⟩, ⟨⟨0, 1/2⟩, 0⟩]

/-! ### Structural lemmas about the matrix layer -/

theorem isRect_eye (n : ℕ) : isRect (eye n) n n := by
  constructor
  · simp [eye]
  · intro row hrow
    simp only [eye, List.mem_map] at hrow
    obtain ⟨i, _, rfl⟩ := hrow
    simp

theorem isRect_I2 : isRect I2 2 2 := isRect_eye 2

theorem kron_length (A B : Mat) : (kron A B).length = A.length * B.length := by
  unfold kron
  induction A with
  | nil => simp
  | cons rowA rest ih =>
      simp only [List.flatMap_cons, List.length_append, List.length_map,
        List.length_cons, ih]
      ring

theorem kron_row_length (rowA rowB : List K) :
    (rowA.flatMap (fun x => rowB.map (fun y => x.mul y))).length
      = rowA.length * rowB.length := by
  induction rowA with
  | nil => simp
  | cons x xs ih =>
      simp only [List.flatMap_cons, List.length_append, List.length_map,
        List.length_cons, ih]
      ring

theorem isRect_kron {A B : Mat} {r₁ c₁ r₂ c₂ : ℕ}
    (hA : isRect A r₁ c₁) (hB : isRect B r₂ c₂) :
    isRect (kron A B) (r₁ * r₂) (c₁ * c₂) := by
  refine ⟨by rw [kron_length, hA.1, hB.1], ?_⟩
  intro row hrow
  simp only [kron, List.mem_flatMap, List.mem_map] at hrow
  obtain ⟨rowA, hrowA, rowB, hrowB, rfl⟩ := hrow
  rw [kron_row_length, hA.2 rowA hrowA, hB.2 rowB hrowB]

theorem matVec_ok {A : Mat} {r c : ℕ} (hA : isRect A r c) {v : Vec}
    (hv : v.length = c) :
    matVec A v = Except.ok (A.map (fun row => dot row v))
      ∧ (A.map (fun row => dot row v)).length = r := by
  refine ⟨?_, by simp [hA.1]⟩
  unfold matVec
  have hall : A.all (fun row => decide (row.length = v.length)) = true := by
    rw [List.all_eq_true]
    intro row hrow
    simp [hA.2 row hrow, hv]
  simp [hall]

theorem basis0_length (d : ℕ) : (basis0 d).length = d := by
  simp [basis0]

/-- When the target is never hit (`t < 0` or `n ≤ t`), the buggy loop
prepends `I2` for all `n` indices. -/
theorem isRect_buggySingleOperator_noskip {M : Mat} {r c : ℕ}
    (hM : isRect M r c) (t : ℤ) (n : ℕ) (ht : t < 0 ∨ (n : ℤ) ≤ t) :
    isRect (buggySingleOperator M t n) (2 ^ n * r) (2 ^ n * c) := by
  induction n with
  | zero => simpa [buggySingleOperator]
  | succ n ih =>
      have step : buggySingleOperator M t (n + 1)
          = if ((n : ℤ) = t) then buggySingleOperator M t n
            else kron I2 (buggySingleOperator M t n) := by
        simp only [buggySingleOperator, List.range_succ, List.foldl_append,
          List.foldl_cons, List.foldl_nil]
      have hne : ¬ ((n : ℤ) = t) := by omega
      rw [step, if_neg hne]
      have := isRect_kron isRect_I2 (ih (by omega))
      simpa [pow_succ, mul_comm, mul_assoc, mul_left_comm] using this

/-- With an in-range target (`0 ≤ t < n`) the buggy loop skips exactly one
index, producing a `2^(n-1)·r × 2^(n-1)·c` operator — for a 2×2 gate matrix
a full `2^n × 2^n` operator, but with the gate always in the last tensor
slot. -/
theorem isRect_buggySingleOperator {M : Mat} {r c : ℕ}
    (hM : isRect M r c) (t : ℤ) (n : ℕ) (ht0 : 0 ≤ t) (htn : t < (n : ℤ)) :
    isRect (buggySingleOperator M t n) (2 ^ (n - 1) * r) (2 ^ (n - 1) * c) := by
  induction n with
  | zero => omega
  | succ n ih =>
      have step : buggySingleOperator M t (n + 1)
          = if ((n : ℤ) = t) then buggySingleOperator M t n
            else kron I2 (buggySingleOperator M t n) := by
        simp only [buggySingleOperator, List.range_succ, List.foldl_append,
          List.foldl_cons, List.foldl_nil]
      rw [step]
      by_cases heq : (n : ℤ) = t
      · rw [if_pos heq]
        have := isRect_buggySingleOperator_noskip hM t n (Or.inr (by omega))
        simpa using this
      · rw [if_neg heq]
        obtain ⟨m, rfl⟩ : ∃ m, n = m + 1 := ⟨n - 1, by omega⟩
        have := isRect_kron isRect_I2 (ih (by omega))
        simp only [Nat.add_sub_cancel] at this ⊢
        have e1 : 2 ^ (m + 1) * r = 2 * (2 ^ m * r) := by ring
        have e2 : 2 ^ (m + 1) * c = 2 * (2 ^ m * c) := by ring
        rw [e1, e2]
        exact this

/-! ### Length facts along the `grover` code path -/

theorem log2_sixty_four : pyLog2 64 = 6 := rfl

theorem isRect_hadamardMatrix : isRect hadamardMatrix 2 2 := by
  constructor
  · rfl
  · intro row hrow
    simp only [hadamardMatrix, List.mem_cons, List.not_mem_nil, or_false] at hrow
    rcases hrow with rfl | rfl <;> rfl

theorem hadamard_step_ok (q : ℕ) (hq : q < 6) (st : Vec) (h : st.length = 64) :
    ∃ st', singleApply hadamardMatrix (some [(q : ℤ)]) st = Except.ok st'
      ∧ st'.length = 64 := by
  have hrect := isRect_buggySingleOperator isRect_hadamardMatrix (q : ℤ) 6
    (by omega) (by omega)
  norm_num at hrect
  have hmv := matVec_ok hrect (v := st) (by omega)
  refine ⟨_, ?_, hmv.2⟩
  show (if ((pyLog2 st.length : ℕ) : ℤ) ≤ (q : ℤ) then
        Except.error (Err.invalidArg "Target qubit index exceeds the number of qubits in the state vector.")
      else matVec (buggySingleOperator hadamardMatrix (q : ℤ) (pyLog2 st.length)) st)
      = _
  rw [h, log2_sixty_four]
  rw [if_neg (by push_cast; omega)]
  exact hmv.1

theorem hadamard_fold_ok (l : List ℕ) (hl : ∀ q ∈ l, q < 6) :
    ∀ st : Vec, st.length = 64 →
    ∃ v, (l.foldlM (fun (st : Vec) (q : ℕ) =>
          singleApply hadamardMatrix (some [(q : ℤ)]) st) st)
        = Except.ok v ∧ v.length = 64 := by
  induction l with
  | nil => intro st h; exact ⟨st, rfl, h⟩
  | cons x xs ih =>
      intro st h
      obtain ⟨st', hst', hlen'⟩ := hadamard_step_ok x (hl x (by simp)) st h
      obtain ⟨v, hv, hvlen⟩ := ih (fun q hq => hl q (by simp [hq])) st' hlen'
      refine ⟨v, ?_, hvlen⟩
      rw [List.foldlM_cons, hst']
      exact hv

theorem initialize_superposition_six_ok :
    ∃ v, initialize_superposition 6 = Except.ok v ∧ v.length = 64 := by
  have := hadamard_fold_ok (List.range 6) (by intro q hq; simpa using hq)
    (basis0 (2 ^ 6)) (by rw [basis0_length]; norm_num)
  simpa [initialize_superposition] using this

theorem oracleMatrix_ok {m n : ℕ} (h : m < 2 ^ n) :
    ∃ M, oracleMatrix m n = Except.ok M ∧ isRect M (2 ^ n) (2 ^ n) := by
  refine ⟨(List.range (2 ^ n)).map (fun i => (List.range (2 ^ n)).map (fun j =>
    if i = j then (if i = m then ⟨⟨-1, 0⟩, 0⟩ else 1) else 0)), ?_, ?_, ?_⟩
  · simp [oracleMatrix, h]
  · simp
  · intro row hrow
    simp only [List.mem_map] at hrow
    obtain ⟨i, _, rfl⟩ := hrow
    simp

theorem isRect_diffuserMatrix (n : ℕ) :
    isRect (diffuserMatrix n) (2 ^ n) (2 ^ n) := by
  constructor
  · simp [diffuserMatrix]
  · intro row hrow
    simp only [diffuserMatrix, List.mem_map] at hrow
    obtain ⟨i, _, rfl⟩ := hrow
    simp

theorem groverLoop_ok {O D : Mat} (hO : isRect O 64 64) (hD : isRect D 64 64) :
    ∀ (k : ℕ) (st : Vec), st.length = 64 →
    ∃ v, groverLoop O D k st = Except.ok v ∧ v.length = 64 := by
  intro k
  induction k with
  | zero => intro st h; exact ⟨st, rfl, h⟩
  | succ k ih =>
      intro st h
      have h1 := matVec_ok hO (v := st) h
      have h2 := matVec_ok hD (v := (O.map (fun row => dot row st))) h1.2
      obtain ⟨v, hv, hvlen⟩ := ih _ h2.2
      refine ⟨v, ?_, hvlen⟩
      rw [groverLoop, h1.1]
      show (Except.ok (List.map (fun row => dot row st) O) >>= fun st => do
        let st ← matVec D st
        groverLoop O D k st) = _
      rw [show (Except.ok (List.map (fun row => dot row st) O) >>= fun st => do
          let st ← matVec D st
          groverLoop O D k st)
        = (do
          let st ← matVec D (List.map (fun row => dot row st) O)
          groverLoop O D k st) from rfl]
      rw [h2.1]
      exact hv

theorem exceptBind_ok {α β : Type} (a : α) (f : α → Except Err β) :
    (Except.ok a >>= f) = f a := rfl

/-- C1: the claim says `grover(numQubits, markedIndex)` prepares the uniform
superposition over `2^numQubits` basis states and returns a final state
vector of length `2^numQubits` for every `numQubits ≥ 1`.  The code instead
reassigns `num_qubits = 6` (grover.py line 23) before building the state,
Oracle and Diffuser, so `grover(3, 2)` succeeds but returns a vector of
length `2^6 = 64`, not `2^3 = 8`. -/
theorem grover_returns_sixty_four_dimensional_state :
    ∃ v, grover 3 2 = Except.ok v ∧ v.length = 64 ∧ v.length ≠ 2 ^ 3 := by
  obtain ⟨v0, h0, l0⟩ := initialize_superposition_six_ok
  obtain ⟨O, hO, hOrect⟩ := oracleMatrix_ok (m := 2) (n := 6) (by norm_num)
  norm_num at hOrect
  have hDrect := isRect_diffuserMatrix 6
  norm_num at hDrect
  obtain ⟨v, hv, hlen⟩ := groverLoop_ok hOrect hDrect
    ((groverIterationsCode (2 ^ 3)).toNat) v0 l0
  refine ⟨v, ?_, hlen, by rw [hlen]; norm_num⟩
  unfold grover
  simp only [h0, hO, exceptBind_ok]
  exact hv

/-- C2: the claim says the full-system operator built for a single-qubit
gate is the tensor product with the gate matrix at the *target* position —
in particular it depends on the target.  The code
(`Gate.get_operator` and the `apply` overrides of every single-qubit gate
class) instead prepends the identity for every non-target index, leaving the
gate matrix in the last tensor slot regardless of the target: for the
Hadamard on 2 qubits the built operator is `I ⊗ H` for target 0 *and*
target 1, while the spec-modelled `buildSingleQubitOperator` places `H ⊗ I`
at target 0.  Consequently the repository's own `test_double_hadamard`
scenario (gates `H[0], H[1], H[1]` on `|00⟩`) evolves to
`[1/√2, 1/√2, 0, 0]` instead of the asserted `[1/√2, 0, 1/√2, 0]`. -/
theorem single_qubit_operator_ignores_target :
    get_operator (.single (some [0]) hadamardMatrix) 2
        = Except.ok (kron I2 hadamardMatrix)
    ∧ get_operator (.single (some [0]) hadamardMatrix) 2
        = get_operator (.single (some [1]) hadamardMatrix) 2
    ∧ buildSingleQubitOperator hadamardMatrix 0 2 = kron hadamardMatrix I2
    ∧ kron I2 hadamardMatrix ≠ kron hadamardMatrix I2
    ∧ applyAll
        [.single (some [0]) hadamardMatrix,
         .single (some [1]) hadamardMatrix,
         .single (some [1]) hadamardMatrix] (basis0 4)
        = Except.ok doubleHadamardActual
    ∧ doubleHadamardActual ≠ doubleHadamardExpected := by
  refine ⟨by decide, by decide, by decide, by decide, by decide, by decide⟩

/-- C3: the claim says `CNOT.apply` multiplies the state by the permutation
operator flipping the target bit of every control-set basis index, for every
register size `n ≥ 2`.  The constructed operator does equal that permutation
matrix for `n = 2` (both qubit orders), but `_construct_cnot_operator` adds
a 4×4 first term (its first loop has no identity branch for non-control,
non-target qubits) to a `2^n × 2^n` second term, so on a 3-qubit state the
addition is a numpy shape error and `CNOT.apply` fails instead of permuting. -/
theorem cnot_operator_two_qubit_only :
    construct_cnot_operator 0 1 2 = Except.ok (specCnotOperator 2 0 1)
    ∧ construct_cnot_operator 1 0 2 = Except.ok (specCnotOperator 2 1 0)
    ∧ cnotApply 0 1 (basis0 8) = Except.error Err.dimMismatch := by
  refine ⟨by decide, by decide, by decide⟩

/-- C4 counterexample: the claim says adding a gate whose target list
contains an out-of-range index raises the invalid-qubit-index error at add
time and does not append the gate.  Adding a Hadamard targeting qubit 5 to a
2-qubit circuit instead succeeds and appends the gate. -/
theorem add_gate_accepts_out_of_range_gate :
    add_gate (mkCircuit 2) (.single (some [5]) hadamardMatrix)
      = Except.ok
        { num_qubits := 2
          gates := [.single (some [5]) hadamardMatrix]
          state := basis0 4 } := by decide

/-- C4 (amended): `add_gate` performs no qubit-index validation — any gate
whose `qubits` is not `None` is appended unchanged with no error, whatever
its indices (`Gate.validate` is never called anywhere in the repository). -/
theorem add_gate_appends_without_validation (c : Circuit) (g : PyGate)
    (qs : List ℤ) (h : g.qubits = some qs) :
    add_gate c g = Except.ok { c with gates := c.gates ++ [g] } := by
  unfold add_gate
  rw [h]

theorem add_gate_appends_without_validation_witness :
    add_gate (mkCircuit 3) (.single (some [-1]) hadamardMatrix)
      = Except.ok
        { num_qubits := 3
          gates := [.single (some [-1]) hadamardMatrix]
          state := basis0 8 } :=
  add_gate_appends_without_validation (mkCircuit 3)
    (.single (some [-1]) hadamardMatrix) [-1] rfl

/-! ### Correctness of the binary formatting helpers -/

theorem mem_binCharsAux (f : ℕ) : ∀ (k : ℕ), ∀ ch ∈ binCharsAux f k,
    ch = '0' ∨ ch = '1' := by
  induction f with
  | zero => intro k ch h; simp [binCharsAux] at h
  | succ f ih =>
      intro k ch h
      rw [binCharsAux] at h
      by_cases hk : k = 0
      · simp [hk] at h
      · rw [if_neg hk, List.mem_append] at h
        rcases h with h | h
        · exact ih _ ch h
        · simp only [List.mem_singleton] at h
          subst h
          by_cases hm : k % 2 = 1 <;> simp [hm]

theorem bitsVal_append_singleton (s : List Char) (c : Char) :
    bitsVal (s ++ [c]) = 2 * bitsVal s + (if c = '1' then 1 else 0) := by
  simp [bitsVal, List.foldl_append]

theorem bitsVal_replicate_zero_append (k : ℕ) (s : List Char) :
    bitsVal (List.replicate k '0' ++ s) = bitsVal s := by
  induction k with
  | zero => rfl
  | succ k ih => simpa [List.replicate_succ, bitsVal] using ih

theorem bitsVal_binCharsAux (f : ℕ) : ∀ (k : ℕ), k ≤ f →
    bitsVal (binCharsAux f k) = k := by
  induction f with
  | zero => intro k hk; interval_cases k; rfl
  | succ f ih =>
      intro k hk
      rw [binCharsAux]
      by_cases hk0 : k = 0
      · simp [hk0, bitsVal]
      · rw [if_neg hk0, bitsVal_append_singleton,
          ih (k / 2) (by omega)]
        have hdm := Nat.div_add_mod k 2
        by_cases hm : k % 2 = 1
        · rw [if_pos (by simp [hm])]
          omega
        · rw [if_neg (by simp [hm])]
          omega

theorem length_binCharsAux_le (f : ℕ) : ∀ (k n : ℕ), k ≤ f → k < 2 ^ n →
    (binCharsAux f k).length ≤ n := by
  induction f with
  | zero => intro k n _ _; simp [binCharsAux]
  | succ f ih =>
      intro k n hk hkn
      rw [binCharsAux]
      by_cases hk0 : k = 0
      · simp [hk0]
      · rw [if_neg hk0]
        obtain ⟨n', rfl⟩ : ∃ n', n = n' + 1 := by
          refine ⟨n - 1, ?_⟩
          rcases Nat.eq_zero_or_pos n with h | h
          · subst h; simp at hkn; omega
          · omega
        have h2 : (2:ℕ) ^ (n' + 1) = 2 * 2 ^ n' := by ring
        rw [h2] at hkn
        have hdiv : k / 2 < 2 ^ n' := by omega
        have := ih (k / 2) n' (by omega) hdiv
        simp only [List.length_append, List.length_singleton]
        omega

theorem mem_binChars (k : ℕ) : ∀ ch ∈ binChars k, ch = '0' ∨ ch = '1' := by
  intro ch h
  rw [binChars] at h
  by_cases hk : k = 0
  · simp [hk] at h
    simp [h]
  · exact mem_binCharsAux k k ch (by rwa [if_neg hk] at h)

theorem bitsVal_binChars (k : ℕ) : bitsVal (binChars k) = k := by
  rw [binChars]
  by_cases hk : k = 0
  · simp [hk, bitsVal]
  · rw [if_neg hk]
    exact bitsVal_binCharsAux k k le_rfl

theorem length_binChars_le (k n : ℕ) (hn : 1 ≤ n) (h : k < 2 ^ n) :
    (binChars k).length ≤ n := by
  rw [binChars]
  by_cases hk : k = 0
  · simpa [hk] using hn
  · rw [if_neg hk]
    exact length_binCharsAux_le k k n le_rfl h

theorem zfill_length (w : ℕ) (s : List Char) (h : s.length ≤ w) :
    (zfill w s).length = w := by
  simp [zfill]
  omega

theorem mem_zfill (w : ℕ) (s : List Char) : ∀ ch ∈ zfill w s,
    ch = '0' ∨ ch ∈ s := by
  intro ch h
  rw [zfill, List.mem_append] at h
  rcases h with h | h
  · exact Or.inl (List.eq_of_mem_replicate h)
  · exact Or.inr h

theorem bitsVal_zfill (w : ℕ) (s : List Char) :
    bitsVal (zfill w s) = bitsVal s :=
  bitsVal_replicate_zero_append _ _

/-- C5 counterexample: the claim says every key of the mapping returned by
`run_simulation` is a string of exactly `numQubits` characters, each
'0'/'1'.  Running an empty 1-qubit circuit for one shot yields the key
`"|0>"`: three characters (the bitstring is wrapped in the ket delimiters
`|…>`), not one. -/
theorem run_simulation_key_is_ket_wrapped :
    run_simulation (mkCircuit 1) 1 (fun _ => 0)
        = Except.ok ([1, 0], [("|0>", 1)], mkCircuit 1)
    ∧ ("|0>").length = 3
    ∧ ("|0>").length ≠ (mkCircuit 1).num_qubits := by
  refine ⟨by decide, by decide, by decide⟩

/-- C5 (amended): a histogram key for basis index `st` of an `n`-qubit
register (`st < 2^n`, `n ≥ 1`) is the zero-padded most-significant-bit-first
binary representation of `st` wrapped in `|…>`: length `n + 2`, with a
leading `'|'`, a trailing `'>'`, and an `n`-character 0/1 core whose value
is `st`. -/
theorem histogram_key_structure (n st : ℕ) (hn : 1 ≤ n) (hst : st < 2 ^ n) :
    (formatKey st n).length = n + 2
    ∧ ∃ mid : List Char,
        (formatKey st n).data = '|' :: (mid ++ ['>'])
        ∧ mid.length = n
        ∧ (∀ ch ∈ mid, ch = '0' ∨ ch = '1')
        ∧ bitsVal mid = st := by
  have hlen : (zfill n (binChars st)).length = n :=
    zfill_length n _ (length_binChars_le st n hn hst)
  constructor
  · show ('|' :: (zfill n (binChars st) ++ ['>'])).length = n + 2
    simp [hlen]
  · refine ⟨zfill n (binChars st), rfl, hlen, ?_, ?_⟩
    · intro ch hch
      rcases mem_zfill n _ ch hch with h | h
      · exact Or.inl h
      · exact mem_binChars st ch h
    · rw [bitsVal_zfill, bitsVal_binChars]

theorem histogram_key_structure_witness :
    (formatKey 5 4).length = 4 + 2
    ∧ ∃ mid : List Char,
        (formatKey 5 4).data = '|' :: (mid ++ ['>'])
        ∧ mid.length = 4
        ∧ (∀ ch ∈ mid, ch = '0' ∨ ch = '1')
        ∧ bitsVal mid = 5 :=
  histogram_key_structure 4 5 (by decide) (by decide)

/-! ### Error classification: no embedded failure is the normalization error
except the explicit check in `run_simulation` -/

theorem matVec_error {A : Mat} {v : Vec} {e : Err}
    (h : matVec A v = Except.error e) : e = Err.dimMismatch := by
  unfold matVec at h
  split at h
  · exact absurd h (by simp)
  · simp only [Except.error.injEq] at h
    exact h.symm

theorem matAdd_error {A B : Mat} {e : Err}
    (h : matAdd A B = Except.error e) : e = Err.dimMismatch := by
  unfold matAdd at h
  split at h
  · exact absurd h (by simp)
  · split at h
    · exact absurd h (by simp)
    · split at h
      · exact absurd h (by simp)
      · simp only [Except.error.injEq] at h
        exact h.symm

theorem singleApply_error {M : Mat} {qs : Option (List ℤ)} {st : Vec} {e : Err}
    (h : singleApply M qs st = Except.error e) : e ≠ Err.normalization := by
  unfold singleApply at h
  split at h
  · simp only [] at h
    split at h
    · simp only [Except.error.injEq] at h
      subst h
      simp
    · rw [matVec_error h]
      simp
  · simp only [Except.error.injEq] at h
    subst h
    simp

theorem construct_cnot_operator_error {c t : ℤ} {n : ℕ} {e : Err}
    (h : construct_cnot_operator c t n = Except.error e) :
    e ≠ Err.normalization := by
  unfold construct_cnot_operator at h
  split at h
  · simp only [Except.error.injEq] at h
    subst h
    simp
  · rw [matAdd_error h]
    simp

theorem cnotApply_error {c t : ℤ} {st : Vec} {e : Err}
    (h : cnotApply c t st = Except.error e) : e ≠ Err.normalization := by
  unfold cnotApply at h
  simp only [] at h
  split at h
  · simp only [throw, throwThe, MonadExceptOf.throw, Except.error.injEq] at h
    subst h
    simp
  · split at h
    · simp only [throw, throwThe, MonadExceptOf.throw, Except.error.injEq] at h
      subst h
      simp
    · cases hc : construct_cnot_operator c t (pyLog2 st.length) with
      | error e' =>
          rw [hc] at h
          have hbind : ((Except.error e' : Except Err Mat) >>= fun op =>
              matVec op st) = Except.error e' := rfl
          rw [hbind] at h
          simp only [Except.error.injEq] at h
          subst h
          exact construct_cnot_operator_error hc
      | ok op =>
          rw [hc] at h
          have hbind : ((Except.ok op : Except Err Mat) >>= fun op =>
              matVec op st) = matVec op st := rfl
          rw [hbind] at h
          rw [matVec_error h]
          simp

theorem pyGateApply_error {g : PyGate} {st : Vec} {e : Err}
    (h : g.apply st = Except.error e) : e ≠ Err.normalization := by
  cases g with
  | single qs M => exact singleApply_error h
  | cnotG c t => exact cnotApply_error h

theorem applyAll_error {gates : List PyGate} :
    ∀ {st : Vec} {e : Err}, applyAll gates st = Except.error e →
    e ≠ Err.normalization := by
  induction gates with
  | nil =>
      intro st e h
      exact absurd h (by simp [applyAll, pure, Except.pure])
  | cons g gs ih =>
      intro st e h
      rw [applyAll, List.foldlM_cons] at h
      cases hg : g.apply st with
      | error e' =>
          rw [hg] at h
          have hbind : ((Except.error e' : Except Err Vec) >>= fun st' =>
              gs.foldlM (fun st g => g.apply st) st') = Except.error e' := rfl
          rw [hbind] at h
          simp only [Except.error.injEq] at h
          subst h
          exact pyGateApply_error hg
      | ok st' =>
          rw [hg] at h
          have hbind : ((Except.ok st' : Except Err Vec) >>= fun st' =>
              gs.foldlM (fun st g => g.apply st) st')
              = gs.foldlM (fun st g => g.apply st) st' := rfl
          rw [hbind] at h
          exact ih h

/-- For `b = 1.0`, numpy's default `isclose` tolerance
`atol + rtol·|b| = 1e-8 + 1e-5` is exactly `1001/100000000`. -/
theorem npIsClose_one (x : Q2) :
    npIsClose x 1 = Q2.le (Q2.abs (Q2.sub x 1))
      (Q2.ofRat (1001 / 100000000)) := rfl

/-- C6 counterexample: the claim says `run_simulation` raises the
normalization error exactly when the probability total deviates from 1 by
more than `1e-6`.  On a state with total `1 + 4e-6` the deviation exceeds
`1e-6`, yet the run succeeds — the code's check is `np.isclose` with its
default `rtol = 1e-5`, `atol = 1e-8`. -/
theorem normalization_check_misses_small_deviation :
    run_simulation smallDeviationCircuit 1 (fun _ => 0)
        = Except.ok ([1, Q2.ofRat (1 / 250000)], [("|0>", 1)],
            smallDeviationCircuit)
    ∧ Q2.le (Q2.abs (Q2.sub (Q2.sum [1, Q2.ofRat (1 / 250000)]) 1))
        (Q2.ofRat (1 / 1000000)) = false := by
  refine ⟨by decide, by decide⟩

/-- C6 (amended): `run_simulation` raises the normalization error exactly
when the post-apply probability total deviates from 1 by more than numpy's
default `isclose` tolerance `1e-8 + 1e-5·|1.0| = 1001/100000000` (not
`1e-6`), and on the success path the sampling distribution is the raw
`|amplitude|²` vector, never renormalized. -/
theorem normalization_check_threshold (c : Circuit) (nS : ℕ)
    (draws : ℕ → ℕ) :
    (run_simulation c nS draws = Except.error Err.normalization ↔
      ∃ st, applyAll c.gates c.state = Except.ok st ∧
        Q2.le (Q2.abs (Q2.sub (Q2.sum (st.map K.normSq)) 1))
          (Q2.ofRat (1001 / 100000000)) = false)
    ∧ (∀ st probs rest, applyAll c.gates c.state = Except.ok st →
        run_simulation c nS draws = Except.ok (probs, rest) →
        probs = st.map K.normSq) := by
  cases happ : applyAll c.gates c.state with
  | error e =>
      have hne := applyAll_error happ
      have hrun : run_simulation c nS draws = Except.error e := by
        unfold run_simulation
        rw [happ]
        rfl
      constructor
      · refine iff_of_false ?_ ?_
        · intro hcontra
          rw [hrun] at hcontra
          simp only [Except.error.injEq] at hcontra
          exact hne hcontra
        · rintro ⟨st, hst, -⟩
          exact absurd hst (by simp)
      · intro st probs rest hst _
        exact absurd hst (by simp)
  | ok st =>
      have hrun : run_simulation c nS draws
          = (if !npIsClose (Q2.sum (st.map K.normSq)) 1 then
              Except.error Err.normalization
            else Except.ok (st.map K.normSq,
              (tally ((List.range nS).map draws)).map
                (fun p => (formatKey p.1 c.num_qubits, p.2)),
              { c with state := st })) := by
        unfold run_simulation
        rw [happ]
        rfl
      cases hB : npIsClose (Q2.sum (st.map K.normSq)) 1 with
      | true =>
          rw [hB] at hrun
          simp only [Bool.not_true, Bool.false_eq_true, if_false] at hrun
          constructor
          · refine iff_of_false ?_ ?_
            · intro hcontra
              rw [hrun] at hcontra
              exact absurd hcontra (by simp)
            · rintro ⟨st', hst', hfalse⟩
              simp only [Except.ok.injEq] at hst'
              subst hst'
              rw [npIsClose_one] at hB
              rw [hB] at hfalse
              exact absurd hfalse (by simp)
          · intro st' probs rest hst' hrun'
            simp only [Except.ok.injEq] at hst'
            subst hst'
            rw [hrun] at hrun'
            simp only [Except.ok.injEq, Prod.mk.injEq] at hrun'
            exact hrun'.1.symm
      | false =>
          rw [hB] at hrun
          simp only [Bool.not_false, if_true] at hrun
          constructor
          · refine iff_of_true hrun ⟨st, rfl, ?_⟩
            rw [npIsClose_one] at hB
            exact hB
          · intro st' probs rest hst' hrun'
            rw [hrun] at hrun'
            exact absurd hrun' (by simp)

theorem normalization_check_threshold_witness :
    run_simulation largeDeviationCircuit 1 (fun _ => 0)
      = Except.error Err.normalization :=
  (normalization_check_threshold largeDeviationCircuit 1 (fun _ => 0)).1.mpr
    ⟨[K.ofRat 1, K.ofRat (1 / 200)], by decide, by decide⟩

theorem get_operator_error {g : PyGate} {nq : ℕ} {e : Err}
    (h : get_operator g nq = Except.error e) : e = Err.indexError := by
  unfold get_operator at h
  split at h
  · exact absurd h (by simp)
  · simp only [Except.error.injEq] at h
    exact h.symm

theorem noisyGateStep_error {nq : ℕ} {s ce : QR} {st : Vec} {g : PyGate}
    {d : GateDraws} {e : Err}
    (h : noisyGateStep nq s ce st g d = Except.error e) :
    e ≠ Err.normalization := by
  unfold noisyGateStep at h
  by_cases hent : isEntangling g = true
  · simp only [hent, if_true] at h
    cases ha : g.apply st with
    | error e' =>
        rw [ha] at h
        have hbind : ((Except.error e' : Except Err Vec) >>= fun st' =>
            if d.coin < ce then pure (vecAdd st' d.vecNoise) else pure st')
            = Except.error e' := rfl
        rw [hbind] at h
        simp only [Except.error.injEq] at h
        subst h
        exact pyGateApply_error ha
    | ok st' =>
        rw [ha] at h
        have hbind : ((Except.ok st' : Except Err Vec) >>= fun st' =>
            if d.coin < ce then pure (vecAdd st' d.vecNoise) else pure st')
            = (if d.coin < ce then pure (vecAdd st' d.vecNoise)
               else pure st') := rfl
        rw [hbind] at h
        split at h
        · exact absurd h (by simp [pure, Except.pure])
        · exact absurd h (by simp [pure, Except.pure])
  · simp only [Bool.not_eq_true] at hent
    simp only [hent, Bool.false_eq_true, if_false] at h
    split at h
    · cases hop : get_operator g nq with
      | error e' =>
          rw [hop] at h
          have hbind : ((Except.error e' : Except Err Mat) >>= fun op =>
              matAdd op d.matNoise >>= fun noisyOp => matVec noisyOp st)
              = Except.error e' := rfl
          rw [hbind] at h
          simp only [Except.error.injEq] at h
          subst h
          rw [get_operator_error hop]
          simp
      | ok op =>
          rw [hop] at h
          have hbind : ((Except.ok op : Except Err Mat) >>= fun op =>
              matAdd op d.matNoise >>= fun noisyOp => matVec noisyOp st)
              = (matAdd op d.matNoise >>= fun noisyOp => matVec noisyOp st) := rfl
          rw [hbind] at h
          cases hadd : matAdd op d.matNoise with
          | error e' =>
              rw [hadd] at h
              have hbind2 : ((Except.error e' : Except Err Mat) >>= fun noisyOp =>
                  matVec noisyOp st) = Except.error e' := rfl
              rw [hbind2] at h
              simp only [Except.error.injEq] at h
              subst h
              rw [matAdd_error hadd]
              simp
          | ok noisyOp =>
              rw [hadd] at h
              have hbind2 : ((Except.ok noisyOp : Except Err Mat) >>= fun noisyOp =>
                  matVec noisyOp st) = matVec noisyOp st := rfl
              rw [hbind2] at h
              rw [matVec_error h]
              simp
    · cases hop : get_operator g nq with
      | error e' =>
          rw [hop] at h
          have hbind : ((Except.error e' : Except Err Mat) >>= fun op =>
              matVec op st) = Except.error e' := rfl
          rw [hbind] at h
          simp only [Except.error.injEq] at h
          subst h
          rw [get_operator_error hop]
          simp
      | ok op =>
          rw [hop] at h
          have hbind : ((Except.ok op : Except Err Mat) >>= fun op =>
              matVec op st) = matVec op st := rfl
          rw [hbind] at h
          rw [matVec_error h]
          simp

theorem noisyFold_error {nq : ℕ} {s ce : QR} {gd : ℕ → GateDraws}
    {l : List (ℕ × PyGate)} :
    ∀ {st : Vec} {e : Err},
    (l.foldlM (fun st p => noisyGateStep nq s ce st p.2 (gd p.1)) st)
      = Except.error e → e ≠ Err.normalization := by
  induction l with
  | nil =>
      intro st e h
      exact absurd h (by simp [pure, Except.pure])
  | cons p ps ih =>
      intro st e h
      rw [List.foldlM_cons] at h
      cases hg : noisyGateStep nq s ce st p.2 (gd p.1) with
      | error e' =>
          rw [hg] at h
          have hbind : ((Except.error e' : Except Err Vec) >>= fun st' =>
              ps.foldlM (fun st p => noisyGateStep nq s ce st p.2 (gd p.1)) st')
              = Except.error e' := rfl
          rw [hbind] at h
          simp only [Except.error.injEq] at h
          subst h
          exact noisyGateStep_error hg
      | ok st' =>
          rw [hg] at h
          have hbind : ((Except.ok st' : Except Err Vec) >>= fun st' =>
              ps.foldlM (fun st p => noisyGateStep nq s ce st p.2 (gd p.1)) st')
              = ps.foldlM (fun st p => noisyGateStep nq s ce st p.2 (gd p.1)) st' := rfl
          rw [hbind] at h
          exact ih h

/-- C7: on the noisy path, when the post-noise probability total is not
`np.isclose` to 1 the vector is divided elementwise by its total and the run
continues (when it is close, the vector is kept as is); and
`run_noisy_simulation` never raises the normalization error — its only
failures are gate-application errors. -/
theorem noisy_path_renormalizes_and_never_raises :
    (∀ st : Vec, npIsClose (Q2.sum (st.map K.normSq)) 1 = false →
      noisyProbabilities st = (st.map K.normSq).map
        (fun p => p.div (Q2.sum (st.map K.normSq))))
    ∧ (∀ st : Vec, npIsClose (Q2.sum (st.map K.normSq)) 1 = true →
      noisyProbabilities st = st.map K.normSq)
    ∧ (∀ (c : Circuit) (nS : ℕ) (g m : QR) (gd : ℕ → GateDraws)
        (sd : ℕ → ShotDraws) (e : Err),
        run_noisy_simulation c nS g m gd sd = Except.error e →
        e ≠ Err.normalization) := by
  refine ⟨?_, ?_, ?_⟩
  · intro st h
    unfold noisyProbabilities
    simp only [h, Bool.not_false, if_true]
  · intro st h
    unfold noisyProbabilities
    simp only [h, Bool.not_true, Bool.false_eq_true, if_false]
  · intro c nS g m gd sd e h
    unfold run_noisy_simulation at h
    simp only [] at h
    cases hf : (c.gates.enum).foldlM
        (fun st p => noisyGateStep c.num_qubits
          ((Option.map (fun p => p.single_qubit_error) (resolveProfile g)).getD g)
          ((Option.map (fun p => p.cnot_error) (resolveProfile g)).getD g)
          st p.2 (gd p.1)) c.state with
    | error e' =>
        rw [hf] at h
        have hbind : ((Except.error e' : Except Err Vec) >>= fun st =>
            (pure (noisyProbabilities st,
              (tally ((List.range nS).map (fun i =>
                reportShot (resolveProfile g) c.num_qubits
                  ((Option.map (fun p => p.t1_decay_prob) (resolveProfile g)).getD 0)
                  ((Option.map (fun p => p.thermal_prob) (resolveProfile g)).getD 0)
                  m (sd i)))).map (fun p => (formatKey p.1 c.num_qubits, p.2)),
              c) : Except Err _)) = Except.error e' := rfl
        rw [hbind] at h
        simp only [Except.error.injEq] at h
        subst h
        exact noisyFold_error hf
    | ok st =>
        rw [hf] at h
        simp only [exceptBind_ok] at h
        exact absurd h (by simp [pure, Except.pure])

theorem noisy_path_renormalizes_and_never_raises_witness :
    noisyProbabilities [K.ofRat 1, K.ofRat 1]
      = ([K.ofRat 1, K.ofRat 1].map K.normSq).map
          (fun p => p.div (Q2.sum ([K.ofRat 1, K.ofRat 1].map K.normSq))) :=
  noisy_path_renormalizes_and_never_raises.1 [K.ofRat 1, K.ofRat 1] (by decide)

/-- C8: a `gate_error_prob` that matches no registered profile's
`gate_error` (the presets are 0.008 and 0.012) resolves to no profile; the
basic model then uses `gate_error_prob` as both the single-qubit and the
cnot error rate with zero T1-decay and thermal-excitation probabilities, and
each shot reports the uniform substitute exactly when the measurement coin
is below `measurement_error_prob`, the true index otherwise. -/
theorem basic_noise_model_fallback (g : QR)
    (h1 : g ≠ 8 / 1000) (h2 : g ≠ 12 / 1000) :
    resolveProfile g = none
    ∧ ((resolveProfile g).map (fun p => p.single_qubit_error)).getD g = g
    ∧ ((resolveProfile g).map (fun p => p.cnot_error)).getD g = g
    ∧ ((resolveProfile g).map (fun p => p.t1_decay_prob)).getD 0 = 0
    ∧ ((resolveProfile g).map (fun p => p.thermal_prob)).getD 0 = 0
    ∧ ∀ (nq : ℕ) (t1 th m : QR) (d : ShotDraws),
        reportShot (resolveProfile g) nq t1 th m d
          = if d.measCoin < m then d.uniformIx else d.trueIx := by
  have hres : resolveProfile g = none := by
    have e1 : ((8 : QR) / 1000 = g) = False := by
      simp only [eq_iff_iff, iff_false]
      exact fun hh => h1 hh.symm
    have e2 : ((12 : QR) / 1000 = g) = False := by
      simp only [eq_iff_iff, iff_false]
      exact fun hh => h2 hh.symm
    simp [resolveProfile, IBM_PROFILES, List.find?, e1, e2]
  refine ⟨hres, ?_, ?_, ?_, ?_, ?_⟩
  · rw [hres]; rfl
  · rw [hres]; rfl
  · rw [hres]; rfl
  · rw [hres]; rfl
  · intro nq t1 th m d
    rw [hres]
    rfl

theorem basic_noise_model_fallback_witness :
    resolveProfile (1 / 2) = none
    ∧ ((resolveProfile (1 / 2)).map (fun p => p.single_qubit_error)).getD (1 / 2) = 1 / 2
    ∧ ((resolveProfile (1 / 2)).map (fun p => p.cnot_error)).getD (1 / 2) = 1 / 2
    ∧ ((resolveProfile (1 / 2)).map (fun p => p.t1_decay_prob)).getD 0 = 0
    ∧ ((resolveProfile (1 / 2)).map (fun p => p.thermal_prob)).getD 0 = 0
    ∧ ∀ (nq : ℕ) (t1 th m : QR) (d : ShotDraws),
        reportShot (resolveProfile (1 / 2)) nq t1 th m d
          = if d.measCoin < m then d.uniformIx else d.trueIx :=
  basic_noise_model_fallback (1 / 2) (by decide) (by decide)

/-- C9 counterexample: the claim says the iteration count is
`floor(π/4·√(2^n) − 0.5)`, the floor taken of the whole expression.  At
`n = 2` that formula gives `⌊π/2 − 0.5⌋ = 1`, while the code computes
`int(floor(π/2) − 0.5) = int(0.5) = 0`. -/
theorem grover_iteration_count_on_two_qubits :
    groverIterationsCode (2 ^ 2) = 0 ∧ groverIterationsSpec (2 ^ 2) = 1 := by
  have hs : Real.sqrt ((2 ^ 2 : ℕ) : ℝ) = 2 := by
    rw [show (((2 ^ 2 : ℕ) : ℝ)) = (2 : ℝ) ^ 2 by norm_num]
    exact Real.sqrt_sq (by norm_num)
  have hπl := Real.pi_gt_d6
  have hπu := Real.pi_lt_d2
  constructor
  · unfold groverIterationsCode pyInt
    rw [hs]
    have hfl : ⌊Real.pi / 4 * 2⌋ = 1 := by
      rw [Int.floor_eq_iff]
      constructor
      · push_cast
        linarith
      · push_cast
        linarith
    rw [hfl]
    rw [if_pos (by norm_num)]
    rw [show ((1 : ℤ) : ℝ) - 0.5 = 0.5 by norm_num]
    rw [show ⌊(0.5 : ℝ)⌋ = 0 from by
      rw [Int.floor_eq_iff]
      norm_num]
  · unfold groverIterationsSpec
    rw [hs]
    rw [Int.floor_eq_iff]
    constructor
    · push_cast
      linarith
    · push_cast
      linarith

/-- C9 (amended): the code floors `π/4·√(2^n)` first and only then
subtracts `0.5` and truncates toward zero, so the iteration count equals
`max(⌊π/4·√(2^n)⌋ − 1, 0)` — one less than the usual Grover count whenever
that floor is positive. -/
theorem grover_iteration_count_formula (n : ℕ) :
    groverIterationsCode (2 ^ n)
      = max (⌊Real.pi / 4 * Real.sqrt ((2 ^ n : ℕ) : ℝ)⌋ - 1) 0 := by
  have hx : (0 : ℝ) ≤ Real.pi / 4 * Real.sqrt ((2 ^ n : ℕ) : ℝ) := by positivity
  have hk : 0 ≤ ⌊Real.pi / 4 * Real.sqrt ((2 ^ n : ℕ) : ℝ)⌋ :=
    Int.floor_nonneg.mpr hx
  unfold groverIterationsCode pyInt
  set k := ⌊Real.pi / 4 * Real.sqrt ((2 ^ n : ℕ) : ℝ)⌋ with hkdef
  by_cases h1 : 1 ≤ k
  · have hge : (0 : ℝ) ≤ (k : ℝ) - 0.5 := by
      have : (1 : ℝ) ≤ (k : ℝ) := by exact_mod_cast h1
      linarith
    rw [if_pos hge]
    have hfl : ⌊(k : ℝ) - 0.5⌋ = k - 1 := by
      rw [Int.floor_eq_iff]
      constructor
      · push_cast
        linarith
      · push_cast
        linarith
    rw [hfl]
    omega
  · have hk0 : k = 0 := by omega
    rw [hk0]
    rw [if_neg (by norm_num)]
    rw [show ((0 : ℤ) : ℝ) - 0.5 = -0.5 by norm_num]
    rw [show ⌈(-0.5 : ℝ)⌉ = 0 from by
      rw [Int.ceil_eq_iff]
      norm_num]
    omega

/-- C10: `run_noisy_simulation` never mutates its circuit argument — on
every successful run the returned circuit object is the argument itself
(the noisy evolution only rebinds a local `state` variable) — whereas
`run_simulation` stores the applied state back into the circuit: the circuit
it returns keeps the gate list but carries the state produced by the single
`apply()` pass, which on a concrete Hadamard circuit differs from the
initial state. -/
theorem noisy_run_preserves_circuit :
    (∀ (c : Circuit) (nS : ℕ) (g m : QR) (gd : ℕ → GateDraws)
        (sd : ℕ → ShotDraws) (probs : List Q2) (counts : List (String × ℕ))
        (c' : Circuit),
        run_noisy_simulation c nS g m gd sd = Except.ok (probs, counts, c') →
        c' = c)
    ∧ (∀ (c : Circuit) (nS : ℕ) (draws : ℕ → ℕ) (probs : List Q2)
        (counts : List (String × ℕ)) (c' : Circuit),
        run_simulation c nS draws = Except.ok (probs, counts, c') →
        c'.gates = c.gates ∧ applyAll c.gates c.state = Except.ok c'.state)
    ∧ (run_simulation hadamardOneQubitCircuit 1 (fun _ => 0)
        = Except.ok ([Q2.ofRat (1 / 2), Q2.ofRat (1 / 2)], [("|0>", 1)],
            { hadamardOneQubitCircuit with state := hadamardAppliedState })
      ∧ hadamardAppliedState ≠ hadamardOneQubitCircuit.state) := by
  refine ⟨?_, ?_, by decide, by decide⟩
  · intro c nS g m gd sd probs counts c' h
    unfold run_noisy_simulation at h
    simp only [] at h
    cases hf : (c.gates.enum).foldlM
        (fun st p => noisyGateStep c.num_qubits
          ((Option.map (fun p => p.single_qubit_error) (resolveProfile g)).getD g)
          ((Option.map (fun p => p.cnot_error) (resolveProfile g)).getD g)
          st p.2 (gd p.1)) c.state with
    | error e =>
        rw [hf] at h
        exact absurd h (by simp [Bind.bind, Except.bind])
    | ok st =>
        rw [hf] at h
        simp only [exceptBind_ok, pure, Except.pure, Except.ok.injEq,
          Prod.mk.injEq] at h
        exact h.2.2.symm
  · intro c nS draws probs counts c' h
    unfold run_simulation at h
    cases happ : applyAll c.gates c.state with
    | error e =>
        rw [happ] at h
        exact absurd h (by simp [Bind.bind, Except.bind])
    | ok st =>
        rw [happ] at h
        simp only [exceptBind_ok] at h
        split at h
        · exact absurd h (by simp [throw, throwThe, MonadExceptOf.throw])
        · simp only [pure, Except.pure, Except.ok.injEq, Prod.mk.injEq] at h
          obtain ⟨-, -, hc'⟩ := h
          subst hc'
          exact ⟨rfl, rfl⟩

theorem noisy_run_preserves_circuit_witness :
    run_noisy_simulation hadamardOneQubitCircuit 1 (1 / 2) (1 / 50)
        (fun _ => ⟨1, [], []⟩) (fun _ => ⟨0, 1, 0, fun _ => 1⟩)
      = Except.ok ([Q2.ofRat (1 / 2), Q2.ofRat (1 / 2)], [("|0>", 1)],
          hadamardOneQubitCircuit)
    ∧ hadamardOneQubitCircuit = hadamardOneQubitCircuit :=
  ⟨by decide,
    noisy_run_preserves_circuit.1 hadamardOneQubitCircuit 1 (1 / 2) (1 / 50)
      (fun _ => ⟨1, [], []⟩) (fun _ => ⟨0, 1, 0, fun _ => 1⟩)
      [Q2.ofRat (1 / 2), Q2.ofRat (1 / 2)] [("|0>", 1)]
      hadamardOneQubitCircuit (by decide)⟩
